import Mathlib

/-!
Verification of the code-audit finding pipeline (Variant-Systems/skills,
`code-audit` skill) against its natural-language specification.

The JavaScript sources are shallowly embedded as executable Lean functions:
 - `severity.mjs` : the finding schema and the `finding` factory;
 - `tools/dedup.mjs` : `deduplicateFindings`;
 - `tools/runner.mjs` : `exec` results, `discoverTools`, `runTool`;
 - `analyzers/imports.mjs` : `extractImports`, `resolveImport`,
   `detectCycles`, `graphAnalysis`, `analyzeImports`.

Conventions of the embedding:
 - JS strings are Lean `String`s; all string manipulation is re-implemented
   over `String.data` (lists of characters) so that every definition is
   executable and kernel-reducible.  JS string functions that the sources use
   (`trim`, `startsWith`, template interpolation of numbers, `split`/`join`)
   are modelled by the `jsTrim`, `startsDot`, `natStr`, ... functions below.
 - JS `Map` is modelled as an insertion-ordered association list with
   `mapSet`/`alookup` (`Map.set` replaces in place, keeping the original
   position, exactly like the JS semantics); JS `Set` is modelled as a
   duplicate-free list with `addSet` (insertion order preserved).
 - JS truthiness on optional fields is modelled explicitly: a `file` field is
   truthy iff it is present and non-empty, a `line` field is truthy iff it is
   present and non-zero.
 - Asynchronous effects (process execution, file reads) are inputs of the
   embedded functions: an `ExecResult` value stands for the settled result of
   `execFile`, and a `readFn : String → Option (List String)` stands for
   `readLines` (`none` = the file failed to read: I/O error or oversize).
 - The regular expressions used by the analyzers are embedded as hand-written
   leftmost-match scanners over character lists, one per regex, following the
   backtracking semantics of the original patterns.
-/

/-! ### Generic list/string helpers (JS Map / Set / string primitives) -/

/-- Association-list lookup, the embedding of JS `Map.get`. -/
def alookup {β : Type} : List (String × β) → String → Option β
  | [], _ => none
  | (k, v) :: rest, q => if k = q then some v else alookup rest q

/-- Embedding of JS `Map.set`: replace the binding in place if the key is
present (keeping its position), otherwise append. -/
def mapSet {β : Type} : List (String × β) → String → β → List (String × β)
  | [], k, v => [(k, v)]
  | (k0, v0) :: rest, k, v =>
    if k0 = k then (k, v) :: rest else (k0, v0) :: mapSet rest k v

/-- Embedding of JS `Set.add`: append iff not already present. -/
def addSet (l : List String) (x : String) : List String :=
  if x ∈ l then l else l ++ [x]

/-- Embedding of JS `Array.prototype.indexOf` on the found case (the sources
only use the index after establishing membership). -/
def idxOf : List String → String → Nat
  | [], _ => 0
  | x :: xs, q => if x = q then 0 else idxOf xs q + 1

/-- Whitespace test used for the embedding of JS `\s` and `String.trim`
(ASCII whitespace; the source files contain only ASCII whitespace). -/
def isWSChar (c : Char) : Bool :=
  c = ' ' || c = '\t' || c = '\n' || c = '\r' || c = '\x0b' || c = '\x0c'

/-- Embedding of JS `String.prototype.trim`. -/
def jsTrim (s : String) : String :=
  String.mk (((s.data.dropWhile isWSChar).reverse.dropWhile isWSChar).reverse)

/-- Embedding of JS `s.startsWith('.')`. -/
def startsDot (s : String) : Bool :=
  match s.data with
  | '.' :: _ => true
  | _ => false

/-- Embedding of JS `Array.prototype.join(sep)`. -/
def joinSep (sep : String) : List String → String
  | [] => ""
  | [s] => s
  | s :: rest => s ++ sep ++ joinSep sep rest

/-- Little-endian decimal digits of a natural number (fuelled so that the
definition is structural and kernel-reducible; the fuel `n + 1` always
suffices). -/
def natDigitsRev : Nat → Nat → List Nat
  | 0, _ => []
  | Nat.succ fuel, n => if n < 10 then [n] else n % 10 :: natDigitsRev fuel (n / 10)

/-- Embedding of JS number-to-string conversion (template interpolation) for
natural numbers. -/
def natStr (n : Nat) : String :=
  String.mk (((natDigitsRev (n + 1) n).reverse).map Nat.digitChar)

/-- Value of a little-endian digit list; inverse of `natDigitsRev`. -/
def digitsVal : List Nat → Nat
  | [] => 0
  | d :: rest => d + 10 * digitsVal rest

/-! ### Finding schema (`scripts/utils/severity.mjs`) -/

/-- Embedding of the canonical finding record created by `finding()` in
`severity.mjs`.  `Object.freeze` makes the JS record immutable; Lean values
are immutable by construction, so no extra modelling is needed. -/
structure Finding where
  analyzer : String
  severity : String
  title : String
  description : String
  file : Option String
  line : Option Nat
  snippet : Option String
  remediation : Option String
  source : String
  toolId : Option String
deriving DecidableEq

/-- Embedding of the `SEVERITY_ORDER` table of `severity.mjs`; its keys are
the five valid severity strings. -/
def SEVERITY_ORDER : List (String × Nat) :=
  [("critical", 0), ("high", 1), ("medium", 2), ("low", 3), ("info", 4)]

/-- Option bag of the `finding()` factory, with the same defaults as the JS
destructuring defaults (`file = null`, `line = null`, `snippet = null`,
`remediation = null`, `source = 'regex'`, `toolId = null`). -/
structure FindingOpts where
  analyzer : String
  severity : String
  title : String
  description : String
  file : Option String := none
  line : Option Nat := none
  snippet : Option String := none
  remediation : Option String := none
  source : String := "regex"
  toolId : Option String := none

/-- The frozen record returned by `finding()` on the success path. -/
def findingRecord (o : FindingOpts) : Finding :=
  ⟨o.analyzer, o.severity, o.title, o.description, o.file, o.line,
   o.snippet, o.remediation, o.source, o.toolId⟩

/-- Embedding of the `finding()` factory of `severity.mjs`: the JS `throw`
on an invalid severity is modelled as `Except.error`
(`SEVERITY_ORDER.hasOwnProperty(severity)` = the lookup succeeds). -/
def finding (o : FindingOpts) : Except String Finding :=
  if (alookup SEVERITY_ORDER o.severity).isSome then Except.ok (findingRecord o)
  else Except.error ("Invalid severity: " ++ o.severity)

/-! ### Deduplicator (`scripts/tools/dedup.mjs`) -/

/-- Coverage key, the embedding of the JS template string
composing the file path, a colon and the line number. -/
def locKey (fl : String) (ln : Nat) : String := fl ++ ":" ++ natStr ln

/-- Coverage keys contributed by one tool finding in `deduplicateFindings`:
the direct key plus the widened ±2-line neighbourhood guarded by
`nearbyLine > 0`.  The JS source tests `f.file && f.line` (truthiness) twice
with the same condition; the two adds are merged under a single test here. -/
def coverageOf (f : Finding) : List String :=
  match f.file, f.line with
  | some fl, some ln =>
    if fl != "" && ln != 0 then
      locKey fl ln ::
        ([-2, -1, 0, 1, 2] : List Int).filterMap (fun off =>
          let nearby : Int := (ln : Int) + off
          if nearby > 0 then some (locKey fl nearby.toNat) else none)
    else []
  | _, _ => []

/-- The coverage set built from all tool findings (modelled as a list; only
membership is ever queried). -/
def toolCoverage (toolFindings : List Finding) : List String :=
  toolFindings.foldl (fun acc f => acc ++ coverageOf f) []

/-- The keep-test applied to each pattern finding: kept unless it has a
truthy file and line whose key is in the coverage set. -/
def keepPattern (cov : List String) (f : Finding) : Bool :=
  match f.file, f.line with
  | some fl, some ln =>
    if fl != "" && ln != 0 then !(cov.contains (locKey fl ln)) else true
  | _, _ => true

/-- Embedding of `deduplicateFindings` of `dedup.mjs`. -/
def deduplicateFindings (toolFindings patternFindings : List Finding) : List Finding :=
  toolFindings ++ patternFindings.filter (keepPattern (toolCoverage toolFindings))

/-- Specification-side coverage predicate (written from the spec's words, for
comparison with the implementation): a pattern finding with a truthy file and
line is covered iff some tool finding with a truthy file and line has the
same file and a line within ±2. -/
def coveredBySpec (toolFindings : List Finding) (f : Finding) : Bool :=
  match f.file, f.line with
  | some fl, some ln =>
    (fl != "" && ln != 0) &&
    toolFindings.any (fun t =>
      match t.file, t.line with
      | some tfl, some tln =>
        (tfl != "" && tln != 0) && tfl == fl && (ln ≤ tln + 2 && tln ≤ ln + 2)
      | _, _ => false)
  | _, _ => false

/-! ### Tool runner (`scripts/tools/runner.mjs`) -/

/-- Static tool descriptor (the fields of a `TOOL_REGISTRY` entry that the
runner reads; the run/detect command arrays select which process is spawned
and do not affect the embedded result, which takes the settled process
result as an input). -/
structure ToolDesc where
  id : String
  name : String
  parserId : String
  timeoutMs : Nat := 60000
deriving DecidableEq

/-- Settled result of `execFile` as produced by the `exec` wrapper: it always
resolves, capturing stdout, stderr, the exit code and whether the process was
killed by the timeout. -/
structure ExecResult where
  stdout : String
  stderr : String
  exitCode : Int
  timedOut : Bool
deriving DecidableEq

/-- Execution metadata emitted by `runTool`.  `durationMs` is wall-clock time
and is not modelled (no claim depends on it). -/
structure ExecMeta where
  toolId : String
  toolName : String
  version : String
  status : String
  findingCount : Option Nat
deriving DecidableEq

/-- Result record of `runTool` (the source never returns null from the paths
embedded here; it always builds a `{findings, meta}` record). -/
structure RunToolResult where
  findings : List Finding
  meta : ExecMeta
deriving DecidableEq

/-- Embedding of `runTool` of `runner.mjs`.  The settled process result and
the parser table (`PARSERS`) are inputs; the function is total, which is the
model of "must not throw".  The exit code field of `result` is never read. -/
def runTool (tool : ToolDesc) (version : String) (result : ExecResult)
    (parsers : String → Option (String → String → String → List Finding))
    (analyzer : String) : RunToolResult :=
  if result.timedOut then
    { findings := [],
      meta := { toolId := tool.id, toolName := tool.name, version := version,
                status := "timeout", findingCount := none } }
  else
    let output := result.stdout
    if jsTrim output = "" then
      { findings := [],
        meta := { toolId := tool.id, toolName := tool.name, version := version,
                  status := if output != "" then "empty" else "no-output",
                  findingCount := none } }
    else
      match parsers tool.parserId with
      | none =>
        { findings := [],
          meta := { toolId := tool.id, toolName := tool.name, version := version,
                    status := "no-parser", findingCount := none } }
      | some p =>
        let fs := p output analyzer tool.id
        { findings := fs,
          meta := { toolId := tool.id, toolName := tool.name, version := version,
                    status := "success", findingCount := some fs.length } }

/-! ### Tool discovery (`discoverTools` of `runner.mjs`) -/

/-- Attempt of the version regex at one position: a maximal digit run,
then a dot, then at least one digit, then a greedy run of digits and dots. -/
def verTryAt (l : List Char) : Option (List Char) :=
  match l with
  | [] => none
  | c :: _ =>
    if c.isDigit then
      let run := l.takeWhile Char.isDigit
      let rest := l.dropWhile Char.isDigit
      match rest with
      | '.' :: rest2 =>
        match rest2 with
        | d :: _ =>
          if d.isDigit then
            some (run ++ '.' :: rest2.takeWhile (fun x => x.isDigit || x = '.'))
          else none
        | [] => none
      | _ => none
    else none

/-- Leftmost match of the numeric dotted-version regex of `discoverTools`:
try each position left to right. -/
def versionScan : List Char → Option (List Char)
  | [] => none
  | c :: rest =>
    match verTryAt (c :: rest) with
    | some m => some m
    | none => versionScan rest

/-- Version string extracted from a probe output: the first dotted-version
match, or the literal string "unknown". -/
def versionFrom (output : String) : String :=
  match versionScan output.data with
  | some m => String.mk m
  | none => "unknown"

/-- Availability entry stored by `discoverTools`. -/
structure ToolAvail where
  id : String
  tool : ToolDesc
  version : String
deriving DecidableEq

/-- Per-tool value of the probe closure in `discoverTools` of `runner.mjs`.
Each probe is an input: `Except.error` stands for a rejected promise (a
crashed or throwing probe, left out by the `Promise.allSettled` status
check); `Except.ok r` for a settled `exec` result.  A timed-out probe, and a probe with empty stdout and
stderr, contribute nothing; otherwise the tool is recorded with the version
extracted from stdout when non-empty, else from stderr
(`(result.stdout || result.stderr || '').trim()`). -/
def availEntry (probe : ToolDesc → Except String ExecResult)
    (tool : ToolDesc) : Option ToolAvail :=
  match probe tool with
  | Except.error _ => none
  | Except.ok r =>
    if r.timedOut then none
    else
      let output := jsTrim (if r.stdout != "" then r.stdout else r.stderr)
      let version := versionFrom output
      if r.stdout != "" || r.stderr != "" then some ⟨tool.id, tool, version⟩
      else none

/-- The collection loop of `discoverTools`: every fulfilled, non-null probe
value is inserted into the availability map under its tool id, in registry
order. -/
def discoverTools (registry : List ToolDesc)
    (probe : ToolDesc → Except String ExecResult) : List (String × ToolAvail) :=
  registry.foldl (fun m tool =>
    match availEntry probe tool with
    | some entry => mapSet m tool.id entry
    | none => m) []

/-- Specification-side version extraction, written from the spec's words
("scan combined output for the first numeric dotted-version pattern"), for
comparison with the implementation. -/
def specVersionCombined (r : ExecResult) : String :=
  versionFrom (jsTrim (r.stdout ++ r.stderr))

/-! ### Import extraction (`extractImports` of `analyzers/imports.mjs`)

Each JS regex is embedded as a leftmost-match scanner: the attempt function
is tried at every position of the line, left to right, exactly as an
unanchored regex match proceeds.  All character-class repetitions in these
patterns are over disjoint follow sets, so greedy maximal runs coincide with
the backtracking semantics of the originals. -/

/-- JS `\w` (word character). -/
def isWordChar (c : Char) : Bool := c.isAlphanum || c = '_'

/-- Quote class of the patterns (single or double quote). -/
def isQuote (c : Char) : Bool := c = '\'' || c = '"'

/-- JS `\s+`: require at least one whitespace character, consume the maximal
run, returning the rest. -/
def dropWS1 : List Char → Option (List Char)
  | [] => none
  | c :: rest => if isWSChar c then some (rest.dropWhile isWSChar) else none

/-- JS `\s*`. -/
def dropWS (l : List Char) : List Char := l.dropWhile isWSChar

/-- Generic leftmost-match driver: try the attempt at each position. -/
def scanFirst (att : List Char → Option (List Char)) : List Char → Option (List Char)
  | [] => att []
  | c :: rest =>
    match att (c :: rest) with
    | some r => some r
    | none => scanFirst att rest

/-- Quoted-capture tail shared by the matchers: `['"]([^'"]+)['"]` — an
opening quote, a maximal non-empty run of non-quote characters (captured),
and a closing quote (either kind). -/
def quotedCapture (l : List Char) : Option (List Char × List Char) :=
  match l with
  | q :: l1 =>
    if isQuote q then
      let cap := l1.takeWhile (fun c => !(isQuote c))
      let l2 := l1.dropWhile (fun c => !(isQuote c))
      match l2 with
      | q2 :: l3 => if isQuote q2 && cap != [] then some (cap, l3) else none
      | [] => none
    else none
  | [] => none

/-- Attempt of `from\s+['"]([^'"]+)['"]` at one position (the part of the
ES-import pattern after the lazy gap). -/
def esFromTry (l : List Char) : Option (List Char) :=
  if "from".data.isPrefixOf l then
    match dropWS1 (l.drop 4) with
    | some l2 => (quotedCapture l2).map Prod.fst
    | none => none
  else none

/-- Attempt of `(?:import|export)\s+.*?from\s+['"]([^'"]+)['"]` at one
position: the keyword, at least one whitespace, then the lazy gap `.*?`
realised as the leftmost position at which the `from` clause matches. -/
def esTryAt (l : List Char) : Option (List Char) :=
  if "import".data.isPrefixOf l || "export".data.isPrefixOf l then
    match dropWS1 (l.drop 6) with
    | some l2 => scanFirst esFromTry l2
    | none => none
  else none

/-- First match of the ES-import regex on a line. -/
def esImportMatch (s : String) : Option String :=
  (scanFirst esTryAt s.data).map String.mk

/-- Call-argument tail `\s*\(\s*['"]([^'"]+)['"]\s*\)` shared by the
`require(...)` and dynamic `import(...)` patterns. -/
def callArgCapture (l : List Char) : Option (List Char) :=
  match dropWS l with
  | '(' :: l2 =>
    match quotedCapture (dropWS l2) with
    | some (cap, l3) =>
      match dropWS l3 with
      | ')' :: _ => some cap
      | _ => none
    | none => none
  | _ => none

/-- Attempt of `require\s*\(\s*['"]([^'"]+)['"]\s*\)` at one position. -/
def cjsTryAt (l : List Char) : Option (List Char) :=
  if "require".data.isPrefixOf l then callArgCapture (l.drop 7) else none

/-- First match of the CommonJS require regex on a line. -/
def cjsRequireMatch (s : String) : Option String :=
  (scanFirst cjsTryAt s.data).map String.mk

/-- Attempt of `import\s*\(\s*['"]([^'"]+)['"]\s*\)` at one position. -/
def dynTryAt (l : List Char) : Option (List Char) :=
  if "import".data.isPrefixOf l then callArgCapture (l.drop 6) else none

/-- First match of the dynamic import regex on a line. -/
def dynImportMatch (s : String) : Option String :=
  (scanFirst dynTryAt s.data).map String.mk

/-- Attempt of `from\s+(\.+\w*)\s+import` at one position: a maximal
non-empty dot run, a maximal word run, whitespace, then `import`. -/
def pyTryAt (l : List Char) : Option (List Char) :=
  if "from".data.isPrefixOf l then
    match dropWS1 (l.drop 4) with
    | some l2 =>
      let dots := l2.takeWhile (fun c => c = '.')
      if dots = [] then none
      else
        let l3 := l2.dropWhile (fun c => c = '.')
        let w := l3.takeWhile isWordChar
        let l4 := l3.dropWhile isWordChar
        match dropWS1 l4 with
        | some l5 => if "import".data.isPrefixOf l5 then some (dots ++ w) else none
        | none => none
    | none => none
  else none

/-- First match of the Python relative-import regex on a line. -/
def pyRelMatch (s : String) : Option String :=
  (scanFirst pyTryAt s.data).map String.mk

/-- Greedy iterations of `(?:\.\w+)+`: consume `.`-then-word segments while
possible (fuelled; each iteration consumes at least two characters, so the
remaining length is always sufficient fuel). -/
def aliasSegs : Nat → List Char → List Char
  | 0, _ => []
  | Nat.succ fuel, l =>
    match l with
    | '.' :: rest =>
      let w := rest.takeWhile isWordChar
      if w = [] then []
      else '.' :: w ++ aliasSegs fuel (rest.dropWhile isWordChar)
    | _ => []

/-- Attempt of `alias\s+(\w+(?:\.\w+)+)` at one position. -/
def exTryAt (l : List Char) : Option (List Char) :=
  if "alias".data.isPrefixOf l then
    match dropWS1 (l.drop 5) with
    | some l2 =>
      let w := l2.takeWhile isWordChar
      if w = [] then none
      else
        let l3 := l2.dropWhile isWordChar
        let segs := aliasSegs l3.length l3
        if segs = [] then none else some (w ++ segs)
    | none => none
  else none

/-- First match of the Elixir alias regex on a line. -/
def exAliasMatch (s : String) : Option String :=
  (scanFirst exTryAt s.data).map String.mk

/-- Branch 5 of the `extractImports` cascade (Elixir alias, no relative
guard and no further fall-through). -/
def lineBranchAlias (t : String) : List String :=
  match exAliasMatch t with
  | some cap => [cap]
  | none => []

/-- Branch 4 of the cascade (Python relative import; the regex itself
enforces the leading dots, so no guard). -/
def lineBranchPy (t : String) : List String :=
  match pyRelMatch t with
  | some cap => [cap]
  | none => lineBranchAlias t

/-- Branch 3 of the cascade (dynamic import, guarded by `startsWith('.')`;
when the guard fails control falls through to the next branch, as in the
source, where only the guarded `if` contains the `continue`). -/
def lineBranchDyn (t : String) : List String :=
  match dynImportMatch t with
  | some cap => if startsDot cap then [cap] else lineBranchPy t
  | none => lineBranchPy t

/-- Branch 2 of the cascade (CommonJS require, guarded). -/
def lineBranchCjs (t : String) : List String :=
  match cjsRequireMatch t with
  | some cap => if startsDot cap then [cap] else lineBranchDyn t
  | none => lineBranchDyn t

/-- Specifiers extracted from one trimmed line by the branch cascade of
`extractImports`: branch 1 is the ES import clause, guarded by
`startsWith('.')`. -/
def lineImports (line : String) : List String :=
  let t := jsTrim line
  match esImportMatch t with
  | some cap => if startsDot cap then [cap] else lineBranchCjs t
  | none => lineBranchCjs t

/-- Embedding of `extractImports(lines, ext, filePath, rootDir)`: the last
three parameters are accepted and unused, as in the source. -/
def extractImports (lines : List String) (ext fp rd : String) : List String :=
  let _ := ext
  let _ := fp
  let _ := rd
  (lines.map lineImports).flatten

/-! ### Import resolution (`resolveImport` of `analyzers/imports.mjs`) -/

/-- File-corpus record (the fields of a collected file that the imports
analyzer reads). -/
structure FileRec where
  absolutePath : String
  relativePath : String
  ext : String
deriving DecidableEq

/-- Embedding of Node `path.dirname` (POSIX) on the clean relative paths the
corpus supplier produces: the part before the last slash, `"."` when there is
no slash, `"/"` when the last slash is leading. -/
def pathDirname (p : String) : String :=
  match p.data.reverse.dropWhile (fun c => c ≠ '/') with
  | [] => "."
  | _ :: rest => if rest = [] then "/" else String.mk rest.reverse

/-- Split a path on slashes. -/
def splitSegsAux : List Char → List Char → List String
  | [], acc => [String.mk acc.reverse]
  | '/' :: rest, acc => String.mk acc.reverse :: splitSegsAux rest []
  | c :: rest, acc => splitSegsAux rest (c :: acc)

/-- Split a path string on `/`. -/
def splitSlash (s : String) : List String := splitSegsAux s.data []

/-- One normalisation step of Node path joining, on a reversed segment stack:
empty and `.` segments are dropped; `..` pops the previous segment when one
exists and is not itself a kept `..` (for relative paths leading `..`
segments are kept; for absolute paths they are dropped at the root). -/
def normStep (isAbs : Bool) (rstack : List String) (seg : String) : List String :=
  if seg = "" || seg = "." then rstack
  else if seg = ".." then
    match rstack with
    | t :: rest => if t = ".." then seg :: rstack else rest
    | [] => if isAbs then [] else [".."]
  else seg :: rstack

/-- Embedding of Node `path.join(a, b)` (POSIX): concatenate, split on
slashes, normalise.  The subsequent separator normalisation step of
`resolveImport` (`split(path.sep).join('/')`) is the identity on POSIX. -/
def pathJoin (a b : String) : String :=
  let isAbs := a.data.head? = some '/'
  let segs := splitSlash a ++ splitSlash b
  let body := joinSep "/" ((segs.foldl (normStep isAbs) []).reverse)
  if isAbs then (if body = "" then "/" else "/" ++ body)
  else (if body = "" then "." else body)

/-- Known source extensions tried by `resolveImport`. -/
def EXTENSIONS : List String :=
  [".js", ".mjs", ".cjs", ".jsx", ".ts", ".tsx", ".py", ".ex", ".exs"]

/-- `allFiles.find(f => f.relativePath === p)`, returning the matched
relative path. -/
def findPath (allFiles : List FileRec) (p : String) : Option String :=
  (allFiles.find? (fun f => f.relativePath == p)).map (fun f => f.relativePath)

/-- The extension-retry loop of `resolveImport`. -/
def firstExtMatch (allFiles : List FileRec) (resolved : String) : List String → Option String
  | [] => none
  | ext :: rest =>
    match findPath allFiles (resolved ++ ext) with
    | some r => some r
    | none => firstExtMatch allFiles resolved rest

/-- The directory-index retry loop of `resolveImport`. -/
def firstIndexMatch (allFiles : List FileRec) (resolved : String) : List String → Option String
  | [] => none
  | ext :: rest =>
    match findPath allFiles (resolved ++ "/index" ++ ext) with
    | some r => some r
    | none => firstIndexMatch allFiles resolved rest

/-- Embedding of `resolveImport(importPath, fromFile, allFiles)`. -/
def resolveImport (importPath fromFile : String) (allFiles : List FileRec) : Option String :=
  let fromDir := pathDirname fromFile
  let resolved := pathJoin fromDir importPath
  match findPath allFiles resolved with
  | some r => some r
  | none =>
    match firstExtMatch allFiles resolved EXTENSIONS with
    | some r => some r
    | none => firstIndexMatch allFiles resolved EXTENSIONS

/-- Specification-side resolution order, written from the spec's words: the
exact path, then the path with each known extension appended, then the
directory index file for each known extension — the first candidate present
in the corpus wins. -/
def resolveImportSpec (importPath fromFile : String) (allFiles : List FileRec) : Option String :=
  let resolved := pathJoin (pathDirname fromFile) importPath
  ([resolved] ++ EXTENSIONS.map (fun e => resolved ++ e)
    ++ EXTENSIONS.map (fun e => resolved ++ "/index" ++ e)).findSome?
    (findPath allFiles)

/-! ### Cycle detection (`detectCycles` of `analyzers/imports.mjs`) -/

/-- Mutable state of the DFS in `detectCycles`: the `visited` set, the
`inStack` set, the `stackPath` array and the collected cycles. -/
structure DfsState where
  visited : List String
  inStack : List String
  stackPath : List String
  cycles : List (List String)
deriving DecidableEq

/-- `graph.get(node) || new Set()` (an existing empty neighbour set is truthy
in JS and is used as is, so this is exactly a lookup with default). -/
def neighborsOf (graph : List (String × List String)) (node : String) : List String :=
  (alookup graph node).getD []

/-- Embedding of the recursive `dfs` closure of `detectCycles`.  The fuel
argument bounds the recursion depth; since every recursive level first adds
an unvisited node to `visited`, the depth never exceeds the number of node
names occurring in the graph, and the fuel supplied by `detectCycles` is
never exhausted.  On the cycle branch, `stackPath.indexOf(node) !== -1` is
modelled by the membership test, and the slice from the index to the top by
`drop (idxOf ...)`. -/
def dfs (graph : List (String × List String)) : Nat → String → DfsState → DfsState
  | 0, _, st => st
  | Nat.succ fuel, node, st =>
    if node ∈ st.inStack then
      if node ∈ st.stackPath then
        { st with cycles := st.cycles ++ [st.stackPath.drop (idxOf st.stackPath node) ++ [node]] }
      else st
    else if node ∈ st.visited then st
    else
      let st1 : DfsState :=
        { visited := addSet st.visited node, inStack := addSet st.inStack node,
          stackPath := st.stackPath ++ [node], cycles := st.cycles }
      let st2 := (neighborsOf graph node).foldl (fun s nb => dfs graph fuel nb s) st1
      { st2 with stackPath := st2.stackPath.dropLast, inStack := st2.inStack.erase node }

/-- Fuel sufficient for `dfs`: one more than the number of node names
occurring in the graph (keys and neighbours). -/
def graphFuel (graph : List (String × List String)) : Nat :=
  graph.foldl (fun a p => a + 1 + p.2.length) 0 + 1

/-- Lexicographic comparison of strings by character code, the embedding of
the default JS `Array.prototype.sort` comparator on strings (UTF-16 code
unit order; identical to code point order on the BMP strings involved). -/
def charListLt : List Char → List Char → Bool
  | [], [] => false
  | [], _ :: _ => true
  | _ :: _, [] => false
  | a :: as, b :: bs =>
    if a.toNat < b.toNat then true
    else if b.toNat < a.toNat then false
    else charListLt as bs

/-- String comparison for the cycle-key sort. -/
def strLtB (a b : String) : Bool := charListLt a.data b.data

/-- Insertion into a sorted string list. -/
def insertSorted (x : String) : List String → List String
  | [] => [x]
  | y :: ys => if strLtB x y then x :: y :: ys else y :: insertSorted x ys

/-- Sort a string list ascending (the result of the JS default sort). -/
def sortStrings (l : List String) : List String := l.foldr insertSorted []

/-- Deduplication key of a cycle: `[...cycle].sort().join('|')`. -/
def cycleKey (c : List String) : String := joinSep "|" (sortStrings c)

/-- The stateful `filter` over collected cycles with the `seen` key set. -/
def dedupCycles : List (List String) → List String → List (List String)
  | [], _ => []
  | c :: rest, seen =>
    if cycleKey c ∈ seen then dedupCycles rest seen
    else c :: dedupCycles rest (seen ++ [cycleKey c])

/-- Embedding of `detectCycles(graph)`: DFS from every unvisited key in
insertion order, then deduplicate the collected cycles by sorted node list. -/
def detectCycles (graph : List (String × List String)) : List (List String) :=
  let st := graph.foldl
    (fun s p => if p.1 ∈ s.visited then s else dfs graph (graphFuel graph) p.1 s)
    ⟨[], [], [], []⟩
  dedupCycles st.cycles []

/-! ### Graph construction and analysis (`graphAnalysis` of `imports.mjs`) -/

/-- The three maps built by the graph-construction loop. -/
structure GraphData where
  graph : List (String × List String)
  inDegree : List (String × Nat)
  outDegree : List (String × Nat)
deriving DecidableEq

/-- Per-file step of the graph-construction loop (executed only when
`readLines` succeeded on the file): extract imports, resolve them against
the whole corpus, record adjacency, out-degree and in-degree increments. -/
def processFile (rootDir : String) (codeFiles : List FileRec) (gd : GraphData)
    (file : FileRec) (lines : List String) : GraphData :=
  let imports := extractImports lines file.ext file.relativePath rootDir
  let resolvedImports := imports.foldl (fun acc imp =>
    match resolveImport imp file.relativePath codeFiles with
    | some r => addSet acc r
    | none => acc) []
  { graph := mapSet gd.graph file.relativePath resolvedImports
    inDegree := resolvedImports.foldl
      (fun m dep => mapSet m dep ((alookup m dep).getD 0 + 1)) gd.inDegree
    outDegree := mapSet gd.outDegree file.relativePath resolvedImports.length }

/-- The graph-construction loop of `graphAnalysis`: files that fail to read
are skipped (`if (!result) continue`). -/
def buildGraph (rootDir : String) (codeFiles : List FileRec)
    (readFn : String → Option (List String)) : GraphData :=
  codeFiles.foldl (fun gd file =>
    match readFn file.absolutePath with
    | none => gd
    | some lines => processFile rootDir codeFiles gd file lines) ⟨[], [], []⟩

/-- Hub threshold test: `count >= Math.max(10, codeFiles.length * 0.15)`.
The comparison is modelled in exact arithmetic (`3 * n ≤ 20 * count`); for
every corpus size below astronomically large, the double-precision
computation of the source decides exactly the same comparison, because
`0.15 * n` is never within the rounding error of a value strictly between
an integer `count` and the exact threshold (the threshold is a multiple of
`1/20`, and in particular `100 * 0.15` rounds to exactly `15.0` and
`10 * 0.15` to exactly `1.5`). -/
def hubTest (count n : Nat) : Bool :=
  decide (10 ≤ count) && decide (3 * n ≤ 20 * count)

/-- Stable descending insertion by in-degree, the embedding of
`hubs.sort((a, b) => b.importedBy - a.importedBy)` (stable per ES2019). -/
def insDesc (x : String × Nat) : List (String × Nat) → List (String × Nat)
  | [] => [x]
  | y :: ys => if x.2 > y.2 then x :: y :: ys else y :: insDesc x ys

/-- Stable descending sort by in-degree. -/
def sortHubsDesc (l : List (String × Nat)) : List (String × Nat) :=
  l.foldl (fun acc x => insDesc x acc) []

/-- The medium-severity circular-import finding built for one cycle.  The
severity arguments are the literal `SEVERITY` constants, on which the
`finding()` factory always succeeds (see `finding_ok_medium` below), so the
record is built directly. -/
def cycleFinding (cycle : List String) : Finding :=
  findingRecord
    { analyzer := "imports", severity := "medium",
      title := "Circular import detected (" ++ natStr cycle.length ++ " files)",
      description := "Circular dependency chain: " ++ joinSep " → " cycle ++
        ". Circular imports can cause initialization issues, make testing difficult, and indicate tight coupling.",
      file := cycle.head?,
      remediation := "Break the cycle by extracting shared code into a separate module, or use dependency injection." }

/-- The low-severity hub finding built for one hub entry. -/
def hubFinding (hub : String × Nat) : Finding :=
  findingRecord
    { analyzer := "imports", severity := "low",
      title := "Hub file: " ++ hub.1 ++ " (imported by " ++ natStr hub.2 ++ " files)",
      description := "This file is imported by " ++ natStr hub.2 ++
        " other files, making it a central coupling point. Changes here have a wide blast radius.",
      file := some hub.1,
      remediation := "Consider if this module has too many responsibilities. Split into focused sub-modules if possible." }

/-- The high-severity summary finding emitted when more than five distinct
cycles were detected. -/
def manyCyclesFinding (k : Nat) : Finding :=
  findingRecord
    { analyzer := "imports", severity := "high",
      title := natStr k ++ " circular dependency chains detected",
      description := "The project has " ++ natStr k ++
        " circular import chains. This level of circular dependency suggests the module architecture needs restructuring.",
      remediation := "Conduct a dependency audit. Introduce clear module boundaries and uni-directional data flow." }

/-- Statistics record of `graphAnalysis`.  `avgImportsPerFile` is a
floating-point display metric (`totalEdges / fileCount` to one decimal) on
which no claim depends; it is not modelled. -/
structure GraphStats where
  filesAnalyzed : Nat
  totalImportEdges : Nat
  circularDependencies : Nat
  hubFiles : List (String × Nat)
deriving DecidableEq

/-- Result of the graph analysis phase. -/
structure AnalyzerResult where
  findings : List Finding
  stats : GraphStats
deriving DecidableEq

/-- Embedding of `graphAnalysis(rootDir, codeFiles)` with the `readLines`
effect as an input.  Findings are pushed in source order: one per cycle,
then up to the top five hubs, then the many-cycles summary. -/
def graphAnalysis (rootDir : String) (codeFiles : List FileRec)
    (readFn : String → Option (List String)) : AnalyzerResult :=
  let gd := buildGraph rootDir codeFiles readFn
  let cycles := detectCycles gd.graph
  let hubs := sortHubsDesc (gd.inDegree.filter (fun p => hubTest p.2 codeFiles.length))
  let totalEdges := (gd.outDegree.map (fun p => p.2)).foldl (fun a b => a + b) 0
  { findings := cycles.map cycleFinding ++ (hubs.take 5).map hubFinding ++
      (if cycles.length > 5 then [manyCyclesFinding cycles.length] else [])
    stats := { filesAnalyzed := codeFiles.length, totalImportEdges := totalEdges,
               circularDependencies := cycles.length, hubFiles := hubs } }

/-- Code-file extensions of the imports analyzer. -/
def CODE_EXTENSIONS_IMPORTS : List String :=
  [".js", ".mjs", ".cjs", ".jsx", ".ts", ".tsx", ".py", ".ex", ".exs"]

/-- Embedding of `analyzeImports`: filter to code files, run the tool phase
(whose accumulated findings are an input here; when `opts.availableTools` is
absent the loop body never runs and the list is empty), run the graph
analysis, deduplicate. -/
def analyzeImportsCore (rootDir : String) (files : List FileRec)
    (toolFindings : List Finding) (readFn : String → Option (List String)) : AnalyzerResult :=
  let codeFiles := files.filter (fun f => CODE_EXTENSIONS_IMPORTS.contains f.ext)
  let r := graphAnalysis rootDir codeFiles readFn
  { findings := deduplicateFindings toolFindings r.findings, stats := r.stats }

/-! ### Predicates and concrete instances used by the claim statements -/

/-- Truthy-location test (file present and non-empty, line present and
non-zero), the hypothesis under which a tool finding covers itself. -/
def truthyLoc (f : Finding) : Bool :=
  (match f.file with | some fl => fl != "" | none => false) &&
  (match f.line with | some ln => ln != 0 | none => false)

/-- Three-file corpus of the end-to-end cycle scenario: `a.js` imports
`./b.js`, `b.js` imports `./c.js`, `c.js` imports `./a.js`. -/
def corpusCycle3 : List FileRec :=
  [⟨"/a.js", "a.js", ".js"⟩, ⟨"/b.js", "b.js", ".js"⟩, ⟨"/c.js", "c.js", ".js"⟩]

/-- Read results for the three-file cycle corpus. -/
def readCycle3 : String → Option (List String) := fun p =>
  if p = "/a.js" then some ["import x from './b.js'"]
  else if p = "/b.js" then some ["import x from './c.js'"]
  else if p = "/c.js" then some ["import x from './a.js'"]
  else none

/-- Two-file corpus in which `b.js` fails to read while `a.js` imports it. -/
def corpusUnread : List FileRec :=
  [⟨"/a.js", "a.js", ".js"⟩, ⟨"/b.js", "b.js", ".js"⟩]

/-- Read results for `corpusUnread`: `a.js` reads fine, `b.js` fails
(I/O error or oversize). -/
def readUnread : String → Option (List String) := fun p =>
  if p = "/a.js" then some ["import x from './b'"] else none

/-- Elixir corpus for the package-style alias counterexample. -/
def corpusAlias : List FileRec :=
  [⟨"/a.ex", "a.ex", ".ex"⟩, ⟨"/MyApp.Module.ex", "MyApp.Module.ex", ".ex"⟩]

/-- A registry of one tool whose probe prints a banner (without any version
number) to stdout and the version to stderr. -/
def registryDemo : List ToolDesc := [⟨"semgrep", "Semgrep", "sarifJson", 60000⟩]

/-- The probe results for `registryDemo`: exit code 2, not timed out, banner
on stdout, dotted version on stderr. -/
def probeDemo : ToolDesc → Except String ExecResult := fun _ =>
  Except.ok ⟨"Semgrep requires login", "1.2.3", 2, false⟩

/-- A tool finding carrying no location (like the high-severity summary
findings emitted by the analyzers). -/
def toolFindingNoLoc : Finding :=
  findingRecord
    { analyzer := "tests", severity := "high", title := "No test files found",
      description := "The project has 6 source files but no test files were detected.",
      source := "tool", toolId := some "t" }

/-- A tool finding at `a.js:10`. -/
def toolFindingAt10 : Finding :=
  findingRecord
    { analyzer := "security", severity := "high", title := "eval", description := "d",
      file := some "a.js", line := some 10, source := "tool", toolId := some "semgrep" }

/-- A pattern finding at `a.js:12` (inside the ±2 radius of line 10). -/
def patternFindingAt12 : Finding :=
  findingRecord
    { analyzer := "security", severity := "medium", title := "p", description := "d",
      file := some "a.js", line := some 12 }

/-- Tool descriptor for the runner witness, with a parser id that is not
registered. -/
def toolDescW : ToolDesc := ⟨"trivy", "Trivy", "unregisteredFormat", 60000⟩

/-- Settled execution result for the runner witness: non-empty stdout,
non-zero exit code, no timeout. -/
def execResultW : ExecResult := ⟨"[]", "", 1, false⟩


/-! ## Lemmas

Everything from here on is proof: first the generic facts about the decimal
rendering and the coverage keys, then the per-claim theorems. -/

theorem natDigitsRev_val : ∀ fuel n, n < fuel → digitsVal (natDigitsRev fuel n) = n := by
  intro fuel
  induction fuel with
  | zero => intro n h; omega
  | succ fuel ih =>
    intro n h
    by_cases h10 : n < 10
    · simp [natDigitsRev, h10, digitsVal]
    · have hdiv : n / 10 < fuel := by
        have h1 : n / 10 < n := Nat.div_lt_self (by omega) (by omega)
        omega
      simp only [natDigitsRev, h10, if_false, digitsVal, ih (n / 10) hdiv]
      omega

theorem natDigitsRev_lt10 : ∀ fuel n d, d ∈ natDigitsRev fuel n → d < 10 := by
  intro fuel
  induction fuel with
  | zero => intro n d h; simp [natDigitsRev] at h
  | succ fuel ih =>
    intro n d h
    by_cases h10 : n < 10
    · simp [natDigitsRev, h10] at h
      omega
    · simp only [natDigitsRev, h10, if_false, List.mem_cons] at h
      rcases h with h | h
      · omega
      · exact ih _ _ h

theorem digitChar_inj_lt : ∀ a, a < 10 → ∀ b, b < 10 →
    Nat.digitChar a = Nat.digitChar b → a = b := by decide

theorem digitChar_ne_colon : ∀ a, a < 10 → Nat.digitChar a ≠ ':' := by decide

theorem map_digitChar_inj : ∀ (l1 l2 : List Nat), (∀ d ∈ l1, d < 10) → (∀ d ∈ l2, d < 10) →
    l1.map Nat.digitChar = l2.map Nat.digitChar → l1 = l2 := by
  intro l1
  induction l1 with
  | nil => intro l2 _ _ h; cases l2 <;> simp_all
  | cons a as ih =>
    intro l2 h1 h2 h
    cases l2 with
    | nil => simp at h
    | cons b bs =>
      simp only [List.map_cons, List.cons.injEq] at h
      have ha : a = b := digitChar_inj_lt a (h1 a (by simp)) b (h2 b (by simp)) h.1
      have hs : as = bs := by
        refine ih bs (fun d hd => h1 d (by simp [hd])) (fun d hd => h2 d (by simp [hd])) h.2
      rw [ha, hs]

theorem natStr_inj : ∀ m n, natStr m = natStr n → m = n := by
  intro m n h
  have hdata : (natStr m).data = (natStr n).data := by rw [h]
  simp only [natStr] at hdata
  have hrev : (natDigitsRev (m + 1) m).reverse = (natDigitsRev (n + 1) n).reverse := by
    apply map_digitChar_inj
    · intro d hd; exact natDigitsRev_lt10 _ _ _ (List.mem_reverse.mp hd)
    · intro d hd; exact natDigitsRev_lt10 _ _ _ (List.mem_reverse.mp hd)
    · exact hdata
  have hdig : natDigitsRev (m + 1) m = natDigitsRev (n + 1) n :=
    List.reverse_injective hrev
  have hm := natDigitsRev_val (m + 1) m (by omega)
  have hn := natDigitsRev_val (n + 1) n (by omega)
  rw [← hm, ← hn, hdig]

theorem natStr_no_colon : ∀ n c, c ∈ (natStr n).data → c ≠ ':' := by
  intro n c hc
  simp only [natStr, List.mem_map] at hc
  obtain ⟨d, hd, hdc⟩ := hc
  have : d < 10 := natDigitsRev_lt10 _ _ _ (List.mem_reverse.mp hd)
  rw [← hdc]
  exact digitChar_ne_colon d this

theorem sep_cons_inj : ∀ (p1 : List Char) (p2 s1 s2 : List Char),
    (':' ∉ p1) → (':' ∉ p2) → p1 ++ ':' :: s1 = p2 ++ ':' :: s2 → p1 = p2 ∧ s1 = s2 := by
  intro p1
  induction p1 with
  | nil =>
    intro p2 s1 s2 _ h2 h
    cases p2 with
    | nil => simpa using h
    | cons c p2 =>
      simp only [List.nil_append, List.cons_append, List.cons.injEq] at h
      exact absurd (by simp [← h.1] : ':' ∈ c :: p2) h2
  | cons a p1 ih =>
    intro p2 s1 s2 h1 h2 h
    cases p2 with
    | nil =>
      simp only [List.cons_append, List.nil_append, List.cons.injEq] at h
      exact absurd (h.1 ▸ List.mem_cons_self a p1) (fun hh => h1 (h.1 ▸ hh))
    | cons b p2 =>
      simp only [List.cons_append, List.cons.injEq] at h
      obtain ⟨hab, hrest⟩ := h
      have := ih p2 s1 s2 (fun hh => h1 (List.mem_cons_of_mem a hh))
        (fun hh => h2 (List.mem_cons_of_mem b hh)) hrest
      exact ⟨by rw [hab, this.1], this.2⟩

theorem locKey_inj : ∀ a m b n, locKey a m = locKey b n → a = b ∧ m = n := by
  intro a m b n h
  have hdata : (locKey a m).data = (locKey b n).data := by rw [h]
  simp only [locKey, String.data_append] at hdata
  simp only [List.append_assoc, List.singleton_append] at hdata
  have hrev : (natStr m).data.reverse ++ ':' :: a.data.reverse
      = (natStr n).data.reverse ++ ':' :: b.data.reverse := by
    have := congrArg List.reverse hdata
    simpa [List.reverse_append] using this
  have hmn := sep_cons_inj _ _ _ _
    (fun hh => natStr_no_colon m ':' (List.mem_reverse.mp hh) rfl)
    (fun hh => natStr_no_colon n ':' (List.mem_reverse.mp hh) rfl) hrev
  constructor
  · have : a.data = b.data := List.reverse_injective hmn.2
    exact String.ext this
  · have : (natStr m).data = (natStr n).data := List.reverse_injective hmn.1
    exact natStr_inj m n (String.ext this)

theorem toolCoverage_eq_flatten : ∀ (tf : List Finding) (acc : List String),
    tf.foldl (fun acc f => acc ++ coverageOf f) acc = acc ++ (tf.map coverageOf).flatten := by
  intro tf
  induction tf with
  | nil => intro acc; simp
  | cons t rest ih =>
    intro acc
    simp only [List.foldl_cons, List.map_cons, List.flatten_cons, ih, List.append_assoc]

theorem mem_toolCoverage : ∀ (tf : List Finding) (x : String),
    x ∈ toolCoverage tf ↔ ∃ t ∈ tf, x ∈ coverageOf t := by
  intro tf x
  unfold toolCoverage
  rw [toolCoverage_eq_flatten]
  simp [List.mem_flatten]


theorem mem_coverageOf_iff : ∀ (t : Finding) (fl : String) (ln : Nat), ln ≠ 0 →
    (locKey fl ln ∈ coverageOf t ↔
      ∃ tfl tln, t.file = some tfl ∧ t.line = some tln ∧ tfl ≠ "" ∧ tln ≠ 0 ∧
        tfl = fl ∧ ln ≤ tln + 2 ∧ tln ≤ ln + 2) := by
  rintro ⟨az, sev, ti, de, file, line, sn, rem, src, tid⟩ fl ln hln
  cases file with
  | none => simp [coverageOf]
  | some tfl =>
    cases line with
    | none => simp [coverageOf]
    | some tln =>
      constructor
      · intro hmem
        simp only [coverageOf] at hmem
        by_cases htfl : tfl = ""
        · simp [htfl] at hmem
        · by_cases htln : tln = 0
          · simp [htln] at hmem
          · have htruthy : (tfl != "" && tln != 0) = true := by
              simp [bne_iff_ne, htfl, htln]
            rw [if_pos htruthy] at hmem
            rcases List.mem_cons.mp hmem with hdirect | hoff
            · obtain ⟨hfl, hlneq⟩ := locKey_inj _ _ _ _ hdirect.symm
              exact ⟨tfl, tln, rfl, rfl, htfl, htln, hfl, by omega, by omega⟩
            · rw [List.mem_filterMap] at hoff
              obtain ⟨off, hoffmem, hoffeq⟩ := hoff
              by_cases hpos : ((tln : Int) + off) > 0
              · rw [if_pos hpos] at hoffeq
                obtain ⟨hfl, hlneq⟩ := locKey_inj _ _ _ _ (Option.some.inj hoffeq)
                have hnn : (0 : Int) ≤ (tln : Int) + off := le_of_lt hpos
                have hint : (ln : Int) = (tln : Int) + off := by
                  rw [← hlneq]
                  exact Int.toNat_of_nonneg hnn
                have hoffrange : off = -2 ∨ off = -1 ∨ off = 0 ∨ off = 1 ∨ off = 2 := by
                  simpa using hoffmem
                exact ⟨tfl, tln, rfl, rfl, htfl, htln, hfl, by omega, by omega⟩
              · rw [if_neg hpos] at hoffeq
                exact absurd hoffeq (by simp)
      · rintro ⟨tfl', tln', heq1, heq2, htfl, htln, hfl, hub, hlb⟩
        have htfl2 : tfl = tfl' := Option.some.inj heq1
        have htln2 : tln = tln' := Option.some.inj heq2
        subst htfl2
        subst htln2
        simp only [coverageOf]
        have htruthy : (tfl != "" && tln != 0) = true := by
          simp [bne_iff_ne, htfl, htln]
        rw [if_pos htruthy]
        apply List.mem_cons_of_mem
        rw [List.mem_filterMap]
        refine ⟨(ln : Int) - tln, ?_, ?_⟩
        · have : (ln : Int) - tln = -2 ∨ (ln : Int) - tln = -1 ∨ (ln : Int) - tln = 0 ∨
              (ln : Int) - tln = 1 ∨ (ln : Int) - tln = 2 := by omega
          simpa using this
        · have hpos : (tln : Int) + ((ln : Int) - tln) > 0 := by omega
          rw [if_pos hpos]
          have htn : ((tln : Int) + ((ln : Int) - tln)).toNat = ln := by omega
          rw [htn, hfl]

theorem keepPattern_eq_not_covered : ∀ (tf : List Finding) (f : Finding),
    keepPattern (toolCoverage tf) f = !(coveredBySpec tf f) := by
  intro tf f
  obtain ⟨az, sev, ti, de, file, line, sn, rem, src, tid⟩ := f
  cases file with
  | none => simp [keepPattern, coveredBySpec]
  | some fl =>
    cases line with
    | none => simp [keepPattern, coveredBySpec]
    | some ln =>
      simp only [keepPattern, coveredBySpec]
      by_cases htruthy : (fl != "" && ln != 0) = true
      · rw [if_pos htruthy, htruthy, Bool.true_and]
        have hln : ln ≠ 0 := by
          simp only [Bool.and_eq_true, bne_iff_ne, ne_eq] at htruthy
          exact htruthy.2
        congr 1
        rw [Bool.eq_iff_iff, List.contains_iff_exists_mem_beq]
        constructor
        · rintro ⟨x, hx, hbeq⟩
          have hxeq : locKey fl ln = x := by simpa using hbeq
          rw [← hxeq] at hx
          rw [mem_toolCoverage] at hx
          obtain ⟨t, htf, hcov⟩ := hx
          rw [List.any_eq_true]
          refine ⟨t, htf, ?_⟩
          rw [mem_coverageOf_iff t fl ln hln] at hcov
          obtain ⟨tfl, tln, h1, h2, h3, h4, h5, h6, h7⟩ := hcov
          rw [h1, h2]
          have h3' : fl ≠ "" := h5 ▸ h3
          simp [bne_iff_ne, h3', h4, h5, h6, h7]
        · intro hany
          rw [List.any_eq_true] at hany
          obtain ⟨t, htf, hpred⟩ := hany
          refine ⟨locKey fl ln, ?_, by simp⟩
          rw [mem_toolCoverage]
          refine ⟨t, htf, ?_⟩
          rw [mem_coverageOf_iff t fl ln hln]
          obtain ⟨taz, tsev, tti, tde, tfile, tline, tsn, trem, tsrc, ttid⟩ := t
          cases tfile with
          | none => simp at hpred
          | some tfl =>
            cases tline with
            | none => simp at hpred
            | some tln =>
              simp only [Bool.and_eq_true, bne_iff_ne, ne_eq, beq_iff_eq,
                decide_eq_true_eq] at hpred
              exact ⟨tfl, tln, rfl, rfl, hpred.1.1.1, hpred.1.1.2, hpred.1.2,
                hpred.2.1, hpred.2.2⟩
      · rw [if_neg htruthy]
        have hfalse : (fl != "" && ln != 0) = false := by
          simpa using htruthy
        rw [hfalse, Bool.false_and, Bool.not_false]

/-- C2: the deduplicator returns all tool findings first in their original
order, followed by exactly those pattern findings not covered by a tool: a
pattern finding with a (truthy) file and line is dropped iff some tool
finding with a (truthy) file and line has the same file and a line within
±2; a pattern finding lacking a line is never dropped; kept pattern findings
preserve their original order; a pattern finding at a distance of three or
more lines, or at a different file, is never suppressed (all of which is the
content of the `coveredBySpec` characterisation). -/
theorem claim2_dedup_characterisation : ∀ (tf pf : List Finding),
    deduplicateFindings tf pf = tf ++ pf.filter (fun f => !(coveredBySpec tf f)) := by
  intro tf pf
  unfold deduplicateFindings
  congr 1
  apply List.filter_congr
  intro f _
  exact keepPattern_eq_not_covered tf f

theorem severity_lookup_iff : ∀ s : String,
    (alookup SEVERITY_ORDER s).isSome = true ↔
      s ∈ (["critical", "high", "medium", "low", "info"] : List String) := by
  intro s
  simp only [SEVERITY_ORDER, alookup, List.mem_cons, List.not_mem_nil]
  split_ifs <;> simp_all [eq_comm]

/-- C10: constructing a finding fails (with the invalid-severity error) iff
the given severity is outside the five levels; for any severity in the set,
construction succeeds and returns the (immutable) record with the given
fields.  Immutability is intrinsic to the model: the returned value is a
pure record that no later stage can mutate. -/
theorem claim10_severity_validity : ∀ o : FindingOpts,
    (finding o = Except.ok (findingRecord o) ↔
      o.severity ∈ (["critical", "high", "medium", "low", "info"] : List String)) ∧
    (finding o = Except.error ("Invalid severity: " ++ o.severity) ↔
      o.severity ∉ (["critical", "high", "medium", "low", "info"] : List String)) := by
  intro o
  unfold finding
  by_cases h : (alookup SEVERITY_ORDER o.severity).isSome = true
  · rw [if_pos h]
    rw [severity_lookup_iff] at h
    simp [h]
  · rw [if_neg h]
    rw [severity_lookup_iff] at h
    simp [h]

/-- C3: the tool runner never consults the exit code; only a timeout or
stdout that is empty after trimming yields an informational status
(`timeout`, or `empty` / `no-output`) with zero findings; and on non-empty
stdout with an unregistered parser id it returns `no-parser` with zero
findings (and, being a total function, never throws). -/
theorem claim3_runner_statuses (tool : ToolDesc) (version : String) (r : ExecResult)
    (parsers : String → Option (String → String → String → List Finding))
    (analyzer : String) :
    (∀ e : Int, runTool tool version { r with exitCode := e } parsers analyzer
        = runTool tool version r parsers analyzer) ∧
    ((runTool tool version r parsers analyzer).meta.status ∈
        (["timeout", "empty", "no-output"] : List String) ↔
      (r.timedOut = true ∨ jsTrim r.stdout = "")) ∧
    ((r.timedOut = true ∨ jsTrim r.stdout = "") →
      (runTool tool version r parsers analyzer).findings = []) ∧
    (r.timedOut = false → jsTrim r.stdout ≠ "" → parsers tool.parserId = none →
      (runTool tool version r parsers analyzer).meta.status = "no-parser" ∧
      (runTool tool version r parsers analyzer).findings = []) := by
  obtain ⟨stdout, stderr, exitCode, timedOut⟩ := r
  refine ⟨fun e => rfl, ?_, ?_, ?_⟩
  · cases timedOut with
    | true => simp [runTool]
    | false =>
      by_cases hso : jsTrim stdout = ""
      · by_cases hne : stdout != ""
        · simp [runTool, hso, hne]
        · simp [runTool, hso, hne]
      · simp only [runTool, Bool.false_eq_true, if_false, hso, if_neg hso]
        cases hp : parsers tool.parserId <;> simp [hp, hso]
  · intro h
    rcases h with h | h
    · simp only at h
      simp [runTool, h]
    · simp only at h
      cases timedOut with
      | true => simp [runTool]
      | false => simp [runTool, h]
  · intro ht hso hp
    simp only at ht hso
    simp [runTool, ht, hso, hp]

/-- Witness for the runner theorem at a concrete tool, execution result and
(empty) parser table: the `no-parser` branch with zero findings. -/
theorem claim3_runner_statuses_witness :
    (runTool toolDescW "0.48.0" execResultW (fun _ => none) "dependencies").meta.status
        = "no-parser" ∧
    (runTool toolDescW "0.48.0" execResultW (fun _ => none) "dependencies").findings = [] :=
  (claim3_runner_statuses toolDescW "0.48.0" execResultW (fun _ => none)
      "dependencies").2.2.2 rfl (by decide) rfl

theorem keepPattern_nil_true : ∀ f : Finding, keepPattern [] f = true := by
  rintro ⟨az, sev, ti, de, file, line, sn, rem, src, tid⟩
  cases file with
  | none => simp [keepPattern]
  | some fl =>
    cases line with
    | none => simp [keepPattern]
    | some ln =>
      simp only [keepPattern]
      split_ifs <;> simp [List.contains]

theorem keepPattern_self_false : ∀ (tf : List Finding) (t : Finding), t ∈ tf →
    truthyLoc t = true → keepPattern (toolCoverage tf) t = false := by
  intro tf t htf htr
  obtain ⟨az, sev, ti, de, file, line, sn, rem, src, tid⟩ := t
  cases file with
  | none => simp [truthyLoc] at htr
  | some fl =>
    cases line with
    | none => simp [truthyLoc] at htr
    | some ln =>
      simp only [truthyLoc, Bool.and_eq_true] at htr
      simp only [keepPattern, if_pos (by simp [htr.1, htr.2] : (fl != "" && ln != 0) = true)]
      have hmem : locKey fl ln ∈ toolCoverage tf := by
        rw [mem_toolCoverage]
        refine ⟨_, htf, ?_⟩
        simp only [coverageOf]
        rw [if_pos (by simp [htr.1, htr.2] : (fl != "" && ln != 0) = true)]
        exact List.mem_cons_self _ _
      have : (toolCoverage tf).contains (locKey fl ln) = true := by
        rw [List.contains_iff_exists_mem_beq]
        exact ⟨_, hmem, by simp⟩
      rw [this, Bool.not_true]

/-- Counterexample to C9 as stated: re-running the deduplicator with its own
merged output as the pattern list is not the identity, because a tool
finding without a location (here the no-test-files summary) is appended a
second time. -/
theorem claim9_counterexample :
    deduplicateFindings [toolFindingNoLoc] (deduplicateFindings [toolFindingNoLoc] [])
      ≠ deduplicateFindings [toolFindingNoLoc] [] := by decide

/-- C9 amended: the deduplicator has the empty tool list as a left identity
unconditionally, and re-running it on its own output is the identity
provided every tool finding carries a truthy file and line (such tool
findings cover themselves and are dropped from the pattern position; tool
findings without a location are duplicated instead, as the counterexample
shows). -/
theorem claim9_amended (tf pf : List Finding)
    (h : ∀ f ∈ tf, truthyLoc f = true) :
    deduplicateFindings tf (deduplicateFindings tf pf) = deduplicateFindings tf pf ∧
    deduplicateFindings [] pf = pf := by
  constructor
  · unfold deduplicateFindings
    rw [List.filter_append]
    have h1 : tf.filter (keepPattern (toolCoverage tf)) = [] := by
      rw [List.filter_eq_nil_iff]
      intro t ht
      rw [keepPattern_self_false tf t ht (h t ht)]
      simp
    have h2 : (pf.filter (keepPattern (toolCoverage tf))).filter
        (keepPattern (toolCoverage tf)) = pf.filter (keepPattern (toolCoverage tf)) := by
      rw [List.filter_filter]
      apply List.filter_congr
      intro f _
      rw [Bool.and_self]
    rw [h1, h2, List.nil_append]
  · unfold deduplicateFindings
    have : pf.filter (keepPattern (toolCoverage [])) = pf := by
      have hcov : toolCoverage [] = [] := rfl
      rw [hcov]
      rw [List.filter_congr (fun f _ => keepPattern_nil_true f)]
      exact List.filter_true pf
    rw [this, List.nil_append]

/-- Witness for the amended C9 at a concrete pair: one located tool finding,
one pattern finding. -/
theorem claim9_amended_witness :
    deduplicateFindings [toolFindingAt10]
        (deduplicateFindings [toolFindingAt10] [patternFindingAt12])
      = deduplicateFindings [toolFindingAt10] [patternFindingAt12] ∧
    deduplicateFindings [] [patternFindingAt12] = [patternFindingAt12] :=
  claim9_amended [toolFindingAt10] [patternFindingAt12] (by decide)

theorem dedupCycles_subset : ∀ (cycles : List (List String)) (seen : List String)
    (c : List String), c ∈ dedupCycles cycles seen → c ∈ cycles := by
  intro cycles
  induction cycles with
  | nil => intro seen c h; simp [dedupCycles] at h
  | cons c0 rest ih =>
    intro seen c h
    simp only [dedupCycles] at h
    split_ifs at h with hseen
    · exact List.mem_cons_of_mem _ (ih _ _ h)
    · rcases List.mem_cons.mp h with h | h
      · rw [h]; exact List.mem_cons_self _ _
      · exact List.mem_cons_of_mem _ (ih _ _ h)

theorem dedupCycles_distinct : ∀ (cycles : List (List String)) (seen : List String),
    List.Pairwise (fun c d => cycleKey c ≠ cycleKey d) (dedupCycles cycles seen) ∧
    (∀ c ∈ dedupCycles cycles seen, cycleKey c ∉ seen) := by
  intro cycles
  induction cycles with
  | nil => intro seen; simp [dedupCycles]
  | cons c0 rest ih =>
    intro seen
    simp only [dedupCycles]
    split_ifs with hseen
    · exact ih seen
    · obtain ⟨ihp, ihs⟩ := ih (seen ++ [cycleKey c0])
      constructor
      · rw [List.pairwise_cons]
        refine ⟨?_, ihp⟩
        intro d hd heq
        have := ihs d hd
        rw [← heq] at this
        exact this (by simp)
      · intro c hc
        rcases List.mem_cons.mp hc with h | h
        · rw [h]; exact hseen
        · intro hmem
          exact ihs c h (by simp [hmem])

/-- C1: cycle detection on the triangle graph reports exactly one cycle,
the stack slice from the repeated node closed by appending it; on the
two-cycle graph it reports exactly one cycle, not two; and in general the
deduplication leaves no two reported cycles with the same sorted node-list
key (the dedup key of the source), so the same cycle discovered from
different start points is reported once. -/
theorem claim1_cycle_detection :
    detectCycles [("A", ["B"]), ("B", ["C"]), ("C", ["A"])] = [["A", "B", "C", "A"]] ∧
    detectCycles [("A", ["B"]), ("B", ["A"])] = [["A", "B", "A"]] ∧
    (∀ graph : List (String × List String),
      List.Pairwise (fun c d => cycleKey c ≠ cycleKey d) (detectCycles graph)) := by
  refine ⟨by decide, by decide, ?_⟩
  intro graph
  unfold detectCycles
  exact (dedupCycles_distinct _ []).1

theorem mem_insDesc : ∀ (l : List (String × Nat)) (a x : String × Nat),
    x ∈ insDesc a l ↔ x = a ∨ x ∈ l := by
  intro l
  induction l with
  | nil => intro a x; simp [insDesc]
  | cons y ys ih =>
    intro a x
    simp only [insDesc]
    split_ifs with hgt
    · simp [List.mem_cons]
    · simp only [List.mem_cons, ih a x]
      tauto

theorem mem_sortHubsDesc_aux : ∀ (l acc : List (String × Nat)) (x : String × Nat),
    x ∈ l.foldl (fun acc y => insDesc y acc) acc ↔ x ∈ acc ∨ x ∈ l := by
  intro l
  induction l with
  | nil => intro acc x; simp
  | cons y ys ih =>
    intro acc x
    simp only [List.foldl_cons]
    rw [ih, mem_insDesc]
    simp [List.mem_cons]
    tauto

theorem mem_sortHubsDesc : ∀ (l : List (String × Nat)) (x : String × Nat),
    x ∈ sortHubsDesc l ↔ x ∈ l := by
  intro l x
  unfold sortHubsDesc
  rw [mem_sortHubsDesc_aux]
  simp

theorem insDesc_sorted : ∀ (l : List (String × Nat)) (a : String × Nat),
    List.Pairwise (fun p q => q.2 ≤ p.2) l →
    List.Pairwise (fun p q => q.2 ≤ p.2) (insDesc a l) := by
  intro l
  induction l with
  | nil => intro a _; simp [insDesc]
  | cons y ys ih =>
    intro a hp
    rw [List.pairwise_cons] at hp
    obtain ⟨hy, hys⟩ := hp
    simp only [insDesc]
    split_ifs with hgt
    · rw [List.pairwise_cons]
      refine ⟨?_, List.pairwise_cons.mpr ⟨hy, hys⟩⟩
      intro q hq
      rcases List.mem_cons.mp hq with h | h
      · rw [h]; omega
      · have := hy q h
        omega
    · rw [List.pairwise_cons]
      refine ⟨?_, ih a hys⟩
      intro q hq
      rcases (mem_insDesc ys a q).mp hq with h | h
      · rw [h]; omega
      · exact hy q h

theorem sortHubsDesc_sorted : ∀ l : List (String × Nat),
    List.Pairwise (fun p q => q.2 ≤ p.2) (sortHubsDesc l) := by
  intro l
  unfold sortHubsDesc
  have haux : ∀ (m acc : List (String × Nat)),
      List.Pairwise (fun p q => q.2 ≤ p.2) acc →
      List.Pairwise (fun p q => q.2 ≤ p.2)
        (m.foldl (fun acc y => insDesc y acc) acc) := by
    intro m
    induction m with
    | nil => intro acc h; simpa using h
    | cons y ys ih =>
      intro acc h
      simp only [List.foldl_cons]
      exact ih _ (insDesc_sorted acc y h)
  exact haux l [] (by simp)

/-- C4: a file entry is flagged as a hub iff it has an in-degree entry of at
least `max(10, 15% of the code-file count)` (in exact arithmetic:
`10 ≤ c` and `3n ≤ 20c`); the hub list is ordered by in-degree descending;
the low-severity findings of the analyzer are exactly those for the first
five hubs of that ordering, hence at most five; and at the concrete sizes of
the claim, in-degree 15 of 100 files is flagged while in-degree 2 of 10
files is not.  (A file with no in-degree entry has in-degree 0 and is below
the threshold.) -/
theorem claim4_hub_threshold : ∀ (rootDir : String) (codeFiles : List FileRec)
    (readFn : String → Option (List String)),
    (∀ p : String × Nat,
      p ∈ (graphAnalysis rootDir codeFiles readFn).stats.hubFiles ↔
        p ∈ (buildGraph rootDir codeFiles readFn).inDegree ∧
          10 ≤ p.2 ∧ 3 * codeFiles.length ≤ 20 * p.2) ∧
    List.Pairwise (fun p q => q.2 ≤ p.2)
      (graphAnalysis rootDir codeFiles readFn).stats.hubFiles ∧
    (graphAnalysis rootDir codeFiles readFn).findings.filter (fun f => f.severity == "low")
      = ((graphAnalysis rootDir codeFiles readFn).stats.hubFiles.take 5).map hubFinding ∧
    ((graphAnalysis rootDir codeFiles readFn).findings.filter
        (fun f => f.severity == "low")).length ≤ 5 ∧
    hubTest 15 100 = true ∧ hubTest 2 10 = false := by
  intro rd cf rf
  have hstats : (graphAnalysis rd cf rf).stats.hubFiles =
      sortHubsDesc ((buildGraph rd cf rf).inDegree.filter
        (fun p => hubTest p.2 cf.length)) := by
    simp [graphAnalysis]
  have hfind : (graphAnalysis rd cf rf).findings =
      (detectCycles (buildGraph rd cf rf).graph).map cycleFinding ++
      ((sortHubsDesc ((buildGraph rd cf rf).inDegree.filter
          (fun p => hubTest p.2 cf.length))).take 5).map hubFinding ++
      (if (detectCycles (buildGraph rd cf rf).graph).length > 5 then
        [manyCyclesFinding (detectCycles (buildGraph rd cf rf).graph).length] else []) := by
    simp [graphAnalysis]
  have hlow : (graphAnalysis rd cf rf).findings.filter (fun f => f.severity == "low")
      = ((graphAnalysis rd cf rf).stats.hubFiles.take 5).map hubFinding := by
    rw [hfind, hstats, List.filter_append, List.filter_append]
    have h1 : ((detectCycles (buildGraph rd cf rf).graph).map cycleFinding).filter
        (fun f => f.severity == "low") = [] := by
      rw [List.filter_map]
      have : ((fun f => f.severity == "low") ∘ cycleFinding) = fun _ => false := by
        funext c
        simp [Function.comp, cycleFinding, findingRecord]
      rw [this, List.filter_false, List.map_nil]
    have h2 : (((sortHubsDesc ((buildGraph rd cf rf).inDegree.filter
          (fun p => hubTest p.2 cf.length))).take 5).map hubFinding).filter
        (fun f => f.severity == "low") =
        ((sortHubsDesc ((buildGraph rd cf rf).inDegree.filter
          (fun p => hubTest p.2 cf.length))).take 5).map hubFinding := by
      rw [List.filter_map]
      have : ((fun f => f.severity == "low") ∘ hubFinding) = fun _ => true := by
        funext h
        simp [Function.comp, hubFinding, findingRecord]
      rw [this, List.filter_true]
    have h3 : (if (detectCycles (buildGraph rd cf rf).graph).length > 5 then
          [manyCyclesFinding (detectCycles (buildGraph rd cf rf).graph).length]
        else []).filter (fun f => f.severity == "low") = [] := by
      split_ifs
      · simp [manyCyclesFinding, findingRecord]
      · simp
    rw [h1, h2, h3, List.nil_append, List.append_nil]
  refine ⟨?_, ?_, hlow, ?_, by decide, by decide⟩
  · intro p
    rw [hstats, mem_sortHubsDesc, List.mem_filter]
    simp [hubTest]
  · rw [hstats]
    exact sortHubsDesc_sorted _
  · rw [hlow]
    simp only [List.length_map, List.length_take]
    exact le_trans (Nat.min_le_left _ _) (le_refl 5)

theorem any_map_comp {β α : Type} : ∀ (l : List β) (f : β → α) (p : α → Bool),
    (l.map f).any p = l.any (fun b => p (f b)) := by
  intro l f p
  induction l with
  | nil => rfl
  | cons b bs ih => simp [List.any_cons, ih]

theorem any_false_eq {α : Type} : ∀ l : List α, (l.any fun _ => false) = false := by
  intro l
  induction l with
  | nil => rfl
  | cons b bs ih => simp [List.any_cons, ih]

/-- C7: the graph analyzer emits exactly one medium-severity finding per
distinct cycle (their count equals `stats.circularDependencies`), and a
high-severity finding is present iff the distinct cycle count exceeds five;
and on the concrete three-file corpus `a.js → b.js → c.js → a.js` with no
external tools, `analyzeImports` produces exactly the single medium
circular-dependency finding whose description names all three files, with
`stats.circularDependencies = 1`. -/
theorem claim7_cycle_findings :
    (∀ (rootDir : String) (codeFiles : List FileRec)
        (readFn : String → Option (List String)),
      ((graphAnalysis rootDir codeFiles readFn).findings.filter
          (fun f => f.severity == "medium")).length
        = (graphAnalysis rootDir codeFiles readFn).stats.circularDependencies ∧
      (graphAnalysis rootDir codeFiles readFn).findings.any
          (fun f => f.severity == "high")
        = decide ((graphAnalysis rootDir codeFiles readFn).stats.circularDependencies > 5)) ∧
    (analyzeImportsCore "." corpusCycle3 [] readCycle3).findings
      = [cycleFinding ["a.js", "b.js", "c.js", "a.js"]] ∧
    (cycleFinding ["a.js", "b.js", "c.js", "a.js"]).severity = "medium" ∧
    (cycleFinding ["a.js", "b.js", "c.js", "a.js"]).description
      = "Circular dependency chain: a.js → b.js → c.js → a.js. Circular imports can cause initialization issues, make testing difficult, and indicate tight coupling." ∧
    (analyzeImportsCore "." corpusCycle3 [] readCycle3).stats.circularDependencies = 1 := by
  refine ⟨?_, by decide, by decide, by decide, by decide⟩
  intro rd cf rf
  have hfind : (graphAnalysis rd cf rf).findings =
      (detectCycles (buildGraph rd cf rf).graph).map cycleFinding ++
      ((sortHubsDesc ((buildGraph rd cf rf).inDegree.filter
          (fun p => hubTest p.2 cf.length))).take 5).map hubFinding ++
      (if (detectCycles (buildGraph rd cf rf).graph).length > 5 then
        [manyCyclesFinding (detectCycles (buildGraph rd cf rf).graph).length] else []) := by
    simp [graphAnalysis]
  have hstat : (graphAnalysis rd cf rf).stats.circularDependencies =
      (detectCycles (buildGraph rd cf rf).graph).length := by
    simp [graphAnalysis]
  constructor
  · rw [hfind, hstat, List.filter_append, List.filter_append]
    have h1 : ((detectCycles (buildGraph rd cf rf).graph).map cycleFinding).filter
        (fun f => f.severity == "medium")
        = (detectCycles (buildGraph rd cf rf).graph).map cycleFinding := by
      rw [List.filter_map]
      have : ((fun f => f.severity == "medium") ∘ cycleFinding) = fun _ => true := by
        funext c
        simp [Function.comp, cycleFinding, findingRecord]
      rw [this, List.filter_true]
    have h2 : (((sortHubsDesc ((buildGraph rd cf rf).inDegree.filter
          (fun p => hubTest p.2 cf.length))).take 5).map hubFinding).filter
        (fun f => f.severity == "medium") = [] := by
      rw [List.filter_map]
      have : ((fun f => f.severity == "medium") ∘ hubFinding) = fun _ => false := by
        funext h
        simp [Function.comp, hubFinding, findingRecord]
      rw [this, List.filter_false, List.map_nil]
    have h3 : (if (detectCycles (buildGraph rd cf rf).graph).length > 5 then
          [manyCyclesFinding (detectCycles (buildGraph rd cf rf).graph).length]
        else []).filter (fun f => f.severity == "medium") = [] := by
      split_ifs
      · simp [manyCyclesFinding, findingRecord]
      · simp
    rw [h1, h2, h3, List.append_nil, List.append_nil, List.length_map]
  · rw [hfind, hstat, List.any_append, List.any_append]
    have h1 : ((detectCycles (buildGraph rd cf rf).graph).map cycleFinding).any
        (fun f => f.severity == "high") = false := by
      rw [any_map_comp]
      have : (fun c => (cycleFinding c).severity == "high") = fun _ => false := by
        funext c
        simp [cycleFinding, findingRecord]
      rw [this, any_false_eq]
    have h2 : (((sortHubsDesc ((buildGraph rd cf rf).inDegree.filter
          (fun p => hubTest p.2 cf.length))).take 5).map hubFinding).any
        (fun f => f.severity == "high") = false := by
      rw [any_map_comp]
      have : (fun h => (hubFinding h).severity == "high") = fun _ => false := by
        funext h
        simp [hubFinding, findingRecord]
      rw [this, any_false_eq]
    rw [h1, h2]
    split_ifs with hgt
    · simp [manyCyclesFinding, findingRecord, hgt]
    · simp [hgt]

theorem alookup_mapSet_self {β : Type} : ∀ (m : List (String × β)) (k : String) (v : β),
    alookup (mapSet m k v) k = some v := by
  intro m k v
  induction m with
  | nil => simp [mapSet, alookup]
  | cons p rest ih =>
    obtain ⟨k0, v0⟩ := p
    simp only [mapSet]
    split_ifs with h
    · simp [alookup]
    · simp only [alookup]
      rw [if_neg h, ih]

theorem alookup_mapSet_ne {β : Type} : ∀ (m : List (String × β)) (k q : String) (v : β),
    q ≠ k → alookup (mapSet m k v) q = alookup m q := by
  intro m k q v hne
  induction m with
  | nil =>
    simp only [mapSet, alookup]
    rw [if_neg (fun hh => hne hh.symm)]
  | cons p rest ih =>
    obtain ⟨k0, v0⟩ := p
    simp only [mapSet]
    split_ifs with h
    · subst h
      simp only [alookup]
      rw [if_neg (fun hh => hne hh.symm), if_neg (fun hh => hne hh.symm)]
    · simp only [alookup]
      split_ifs with h2
      · rfl
      · exact ih

theorem discoverTools_lookup_absent : ∀ (reg : List ToolDesc)
    (probe : ToolDesc → Except String ExecResult) (acc : List (String × ToolAvail))
    (tid : String), (∀ t ∈ reg, t.id ≠ tid) →
    alookup (reg.foldl (fun m tool =>
      match availEntry probe tool with
      | some entry => mapSet m tool.id entry
      | none => m) acc) tid = alookup acc tid := by
  intro reg probe
  induction reg with
  | nil => intro acc tid _; rfl
  | cons t0 rest ih =>
    intro acc tid hne
    simp only [List.foldl_cons]
    rw [ih _ tid (fun t ht => hne t (List.mem_cons_of_mem _ ht))]
    cases h : availEntry probe t0 with
    | none => rfl
    | some entry =>
      exact alookup_mapSet_ne acc t0.id tid entry
        (fun hh => hne t0 (List.mem_cons_self _ _) hh.symm)

theorem discoverTools_lookup_char : ∀ (reg : List ToolDesc)
    (probe : ToolDesc → Except String ExecResult) (acc : List (String × ToolAvail)),
    (∀ t ∈ reg, alookup acc t.id = none) →
    List.Pairwise (fun a b => a.id ≠ b.id) reg →
    ∀ t ∈ reg,
      alookup (reg.foldl (fun m tool =>
        match availEntry probe tool with
        | some entry => mapSet m tool.id entry
        | none => m) acc) t.id = availEntry probe t := by
  intro reg probe
  induction reg with
  | nil => intro acc _ _ t ht; simp at ht
  | cons t0 rest ih =>
    intro acc hacc hdist t ht
    rw [List.pairwise_cons] at hdist
    obtain ⟨hhead, htail⟩ := hdist
    simp only [List.foldl_cons]
    rcases List.mem_cons.mp ht with rfl | hmem
    · rw [discoverTools_lookup_absent rest probe _ t.id
        (fun u hu => (hhead u hu).symm)]
      cases h : availEntry probe t with
      | none => exact hacc t (List.mem_cons_self _ _)
      | some entry => exact alookup_mapSet_self acc t.id entry
    · apply ih _ _ htail t hmem
      intro u hu
      cases h : availEntry probe t0 with
      | none => exact hacc u (List.mem_cons_of_mem _ hu)
      | some entry =>
        rw [alookup_mapSet_ne acc t0.id u.id entry (Ne.symm (hhead u hu))]
        exact hacc u (List.mem_cons_of_mem _ hu)

/-- Counterexample to C8 as stated: the version is not extracted from the
combined probe output.  For a probe whose stdout is a version-less banner
and whose stderr carries the dotted version, the recorded version is the
literal "unknown", while the first dotted-version pattern of the combined
output is "1.2.3". -/
theorem claim8_counterexample :
    (alookup (discoverTools registryDemo probeDemo) "semgrep").map (fun e => e.version)
        = some "unknown" ∧
    specVersionCombined ⟨"Semgrep requires login", "1.2.3", 2, false⟩ = "1.2.3" ∧
    ("unknown" : String) ≠ "1.2.3" := by
  refine ⟨by decide, by decide, by decide⟩

/-- C8 amended: for a registry with distinct tool ids, the availability map
binds each tool id exactly as its own probe dictates — present iff the probe
settled without timeout and produced any output on stdout or stderr (the
exit code is never consulted), with the version taken as the first dotted
pattern of stdout when stdout is non-empty and of stderr otherwise
("unknown" when none).  A rejected (crashed/throwing) probe yields `none`
for its own tool only; every other tool's binding is still determined by its
own probe. -/
theorem claim8_amended : ∀ (registry : List ToolDesc)
    (probe : ToolDesc → Except String ExecResult),
    List.Pairwise (fun a b => a.id ≠ b.id) registry →
    ∀ t ∈ registry,
      alookup (discoverTools registry probe) t.id = availEntry probe t := by
  intro registry probe hdist t ht
  unfold discoverTools
  exact discoverTools_lookup_char registry probe [] (fun _ _ => rfl) hdist t ht

/-- Witness for the amended C8 on the concrete one-tool registry. -/
theorem claim8_amended_witness :
    alookup (discoverTools registryDemo probeDemo) "semgrep"
      = availEntry probeDemo ⟨"semgrep", "Semgrep", "sarifJson", 60000⟩ :=
  claim8_amended registryDemo probeDemo (by simp [registryDemo])
    ⟨"semgrep", "Semgrep", "sarifJson", 60000⟩ (by decide)

/-- Counterexample to C5 as stated: the Elixir alias branch extracts the
module name `MyApp.Module`, which does not begin with a path-relative
marker, and it resolves to a file of the corpus, producing an edge. -/
theorem claim5_counterexample :
    extractImports ["alias MyApp.Module"] ".ex" "a.ex" "." = ["MyApp.Module"] ∧
    startsDot "MyApp.Module" = false ∧
    resolveImport "MyApp.Module" "a.ex" corpusAlias = some "MyApp.Module.ex" := by
  refine ⟨by decide, by decide, by decide⟩

theorem scanFirst_some : ∀ (att : List Char → Option (List Char)) (l r : List Char),
    scanFirst att l = some r → ∃ l2, att l2 = some r := by
  intro att l
  induction l with
  | nil => intro r h; exact ⟨[], h⟩
  | cons c rest ih =>
    intro r h
    simp only [scanFirst] at h
    cases hat : att (c :: rest) with
    | some m =>
      rw [hat] at h
      exact ⟨c :: rest, by rw [hat]; exact h⟩
    | none =>
      rw [hat] at h
      exact ih r h

theorem takeWhile_dot_cons : ∀ (l2 w : List Char),
    List.takeWhile (fun c => decide (c = '.')) l2 ≠ [] →
    ∃ t, List.takeWhile (fun c => decide (c = '.')) l2 ++ w = '.' :: t := by
  intro l2 w hne
  cases hd : List.takeWhile (fun c => decide (c = '.')) l2 with
  | nil => exact absurd hd hne
  | cons c cs =>
    have hc : c = '.' := by
      have := List.mem_takeWhile_imp (hd ▸ List.mem_cons_self c cs)
      simpa using this
    exact ⟨cs ++ w, by rw [hc]; exact List.cons_append '.' cs w⟩

theorem pyTryAt_starts_with_dot : ∀ (l r : List Char), pyTryAt l = some r →
    ∃ t, r = '.' :: t := by
  intro l r h
  unfold pyTryAt at h
  split_ifs at h with hfrom
  split at h
  · dsimp only at h
    split_ifs at h with hdots
    split at h
    · split_ifs at h with himp
      have hr := (Option.some.inj h).symm
      rw [hr]
      exact takeWhile_dot_cons _ _ hdots
    · exact absurd h (by simp)
  · exact absurd h (by simp)

theorem pyRelMatch_startsDot : ∀ (s cap : String), pyRelMatch s = some cap →
    startsDot cap = true := by
  intro s cap h
  unfold pyRelMatch at h
  cases hscan : scanFirst pyTryAt s.data with
  | none => rw [hscan] at h; exact absurd h (by simp)
  | some r =>
    rw [hscan] at h
    obtain ⟨l2, hl2⟩ := scanFirst_some pyTryAt s.data r hscan
    obtain ⟨t, ht⟩ := pyTryAt_starts_with_dot l2 r hl2
    have hcap : cap = String.mk r := (Option.some.inj h).symm
    rw [hcap, ht]
    rfl

theorem lineBranchAlias_marker : ∀ (t s : String), s ∈ lineBranchAlias t →
    exAliasMatch t = some s := by
  intro t s h
  unfold lineBranchAlias at h
  cases hm : exAliasMatch t with
  | some cap =>
    simp only [hm] at h
    have hs : s = cap := List.mem_singleton.mp h
    rw [hs]
  | none =>
    simp only [hm] at h
    exact absurd h (List.not_mem_nil s)

theorem lineBranchPy_marker : ∀ (t s : String), s ∈ lineBranchPy t →
    startsDot s = true ∨ exAliasMatch t = some s := by
  intro t s h
  unfold lineBranchPy at h
  cases hm : pyRelMatch t with
  | some cap =>
    simp only [hm] at h
    left
    rw [List.mem_singleton.mp h]
    exact pyRelMatch_startsDot t cap hm
  | none =>
    simp only [hm] at h
    exact Or.inr (lineBranchAlias_marker t s h)

theorem lineBranchDyn_marker : ∀ (t s : String), s ∈ lineBranchDyn t →
    startsDot s = true ∨ exAliasMatch t = some s := by
  intro t s h
  unfold lineBranchDyn at h
  cases hm : dynImportMatch t with
  | some cap =>
    simp only [hm] at h
    split_ifs at h with hdot
    · left
      rw [List.mem_singleton.mp h]
      exact hdot
    · exact lineBranchPy_marker t s h
  | none =>
    simp only [hm] at h
    exact lineBranchPy_marker t s h

theorem lineBranchCjs_marker : ∀ (t s : String), s ∈ lineBranchCjs t →
    startsDot s = true ∨ exAliasMatch t = some s := by
  intro t s h
  unfold lineBranchCjs at h
  cases hm : cjsRequireMatch t with
  | some cap =>
    simp only [hm] at h
    split_ifs at h with hdot
    · left
      rw [List.mem_singleton.mp h]
      exact hdot
    · exact lineBranchDyn_marker t s h
  | none =>
    simp only [hm] at h
    exact lineBranchDyn_marker t s h

theorem lineImports_marker : ∀ (line s : String), s ∈ lineImports line →
    startsDot s = true ∨ exAliasMatch (jsTrim line) = some s := by
  intro line s h
  unfold lineImports at h
  cases hm : esImportMatch (jsTrim line) with
  | some cap =>
    simp only [hm] at h
    split_ifs at h with hdot
    · left
      rw [List.mem_singleton.mp h]
      exact hdot
    · exact lineBranchCjs_marker (jsTrim line) s h
  | none =>
    simp only [hm] at h
    exact lineBranchCjs_marker (jsTrim line) s h


theorem findPath_sound : ∀ (allFiles : List FileRec) (p r : String),
    findPath allFiles p = some r → ∃ f ∈ allFiles, f.relativePath = r := by
  intro allFiles p r h
  unfold findPath at h
  cases hf : allFiles.find? (fun f => f.relativePath == p) with
  | none => rw [hf] at h; exact absurd h (by simp)
  | some f =>
    rw [hf] at h
    refine ⟨f, List.mem_of_find?_eq_some hf, Option.some.inj h⟩

theorem firstExtMatch_eq_findSome : ∀ (allFiles : List FileRec) (resolved : String)
    (exts : List String),
    firstExtMatch allFiles resolved exts
      = (exts.map (fun e => resolved ++ e)).findSome? (findPath allFiles) := by
  intro allFiles resolved exts
  induction exts with
  | nil => rfl
  | cons e rest ih =>
    simp only [firstExtMatch, List.map_cons, List.findSome?_cons]
    cases findPath allFiles (resolved ++ e) with
    | some r => rfl
    | none => exact ih

theorem firstIndexMatch_eq_findSome : ∀ (allFiles : List FileRec) (resolved : String)
    (exts : List String),
    firstIndexMatch allFiles resolved exts
      = (exts.map (fun e => resolved ++ "/index" ++ e)).findSome? (findPath allFiles) := by
  intro allFiles resolved exts
  induction exts with
  | nil => rfl
  | cons e rest ih =>
    simp only [firstIndexMatch, List.map_cons, List.findSome?_cons]
    cases findPath allFiles (resolved ++ "/index" ++ e) with
    | some r => rfl
    | none => exact ih

theorem resolveImport_eq_spec : ∀ (imp fromFile : String) (allFiles : List FileRec),
    resolveImport imp fromFile allFiles = resolveImportSpec imp fromFile allFiles := by
  intro imp fromFile allFiles
  unfold resolveImport resolveImportSpec
  rw [List.findSome?_append, List.findSome?_append]
  simp only [List.findSome?_cons, List.findSome?_nil]
  rw [← firstExtMatch_eq_findSome, ← firstIndexMatch_eq_findSome]
  cases findPath allFiles (pathJoin (pathDirname fromFile) imp) with
  | some r => rfl
  | none =>
    simp only [Option.none_orElse]
    cases firstExtMatch allFiles (pathJoin (pathDirname fromFile) imp) EXTENSIONS with
    | some r => rfl
    | none => rfl

/-- C5 amended: every extracted specifier either begins with the
path-relative marker `.` (all JS/TS branches are guarded by
`startsWith('.')` and the Python relative-import pattern requires leading
dots) or is the capture of the Elixir alias pattern, which is a module name
with no relative marker; each specifier is resolved by trying the exact
relative path, then each known source extension, then the directory index
file for each extension (first hit wins); and a resolved edge always points
to a file of the corpus — unresolvable specifiers produce no edge. -/
theorem claim5_amended :
    (∀ (lines : List String) (ext fp rd : String) (s : String),
      s ∈ extractImports lines ext fp rd →
        startsDot s = true ∨ ∃ line ∈ lines, exAliasMatch (jsTrim line) = some s) ∧
    (∀ (imp fromFile : String) (allFiles : List FileRec),
      resolveImport imp fromFile allFiles = resolveImportSpec imp fromFile allFiles) ∧
    (∀ (imp fromFile : String) (allFiles : List FileRec) (r : String),
      resolveImport imp fromFile allFiles = some r →
        ∃ f ∈ allFiles, f.relativePath = r) := by
  refine ⟨?_, resolveImport_eq_spec, ?_⟩
  · intro lines ext fp rd s h
    unfold extractImports at h
    simp only [List.mem_flatten, List.mem_map] at h
    obtain ⟨sub, ⟨line, hline, hsub⟩, hs⟩ := h
    rw [← hsub] at hs
    rcases lineImports_marker line s hs with hdot | halias
    · exact Or.inl hdot
    · exact Or.inr ⟨line, hline, halias⟩
  · intro imp fromFile allFiles r h
    unfold resolveImport at h
    dsimp only at h
    cases h1 : findPath allFiles (pathJoin (pathDirname fromFile) imp) with
    | some x =>
      simp only [h1] at h
      exact findPath_sound _ _ _ (h1.trans h)
    | none =>
      simp only [h1] at h
      cases h2 : firstExtMatch allFiles (pathJoin (pathDirname fromFile) imp) EXTENSIONS with
      | some x =>
        simp only [h2] at h
        rw [firstExtMatch_eq_findSome] at h2
        obtain ⟨p, hp, hfind⟩ := List.exists_of_findSome?_eq_some (h2.trans h)
        exact findPath_sound _ _ _ hfind
      | none =>
        simp only [h2] at h
        rw [firstIndexMatch_eq_findSome] at h
        obtain ⟨p, hp, hfind⟩ := List.exists_of_findSome?_eq_some h
        exact findPath_sound _ _ _ hfind

/-- Witness for the amended C5 at concrete inputs: a require specifier
carries the relative marker, resolution agrees with the spec-ordered
candidate search, and a resolved specifier lands in the corpus. -/
theorem claim5_amended_witness :
    (startsDot "./util" = true ∨
      ∃ line ∈ (["const a = require('./util')"] : List String),
        exAliasMatch (jsTrim line) = some "./util") ∧
    resolveImport "./b" "a.js" corpusUnread = resolveImportSpec "./b" "a.js" corpusUnread ∧
    (∃ f ∈ corpusUnread, f.relativePath = "b.js") :=
  ⟨claim5_amended.1 ["const a = require('./util')"] ".js" "a.js" "." "./util" (by decide),
   claim5_amended.2.1 "./b" "a.js" corpusUnread,
   claim5_amended.2.2 "./b" "a.js" corpusUnread "b.js" (by decide)⟩

theorem dfs_stackPath_eq (g : List (String × List String)) :
    ∀ (fuel : Nat) (node : String) (st : DfsState),
      (dfs g fuel node st).stackPath = st.stackPath := by
  intro fuel
  induction fuel with
  | zero => intro node st; rfl
  | succ fuel ih =>
    intro node st
    have hfold : ∀ (l : List String) (s : DfsState),
        (l.foldl (fun s nb => dfs g fuel nb s) s).stackPath = s.stackPath := by
      intro l
      induction l with
      | nil => intro s; rfl
      | cons b bs ihl =>
        intro s
        simp only [List.foldl_cons]
        rw [ihl (dfs g fuel b s), ih b s]
    simp only [dfs]
    split_ifs with h1 h2 h3
    · rfl
    · rfl
    · rfl
    · dsimp only
      rw [hfold]
      exact List.dropLast_concat

theorem dfs_cycles_edges (g : List (String × List String)) :
    ∀ (fuel : Nat) (node : String) (st : DfsState),
      (∀ x ∈ st.stackPath, neighborsOf g x ≠ []) →
      ∀ c ∈ (dfs g fuel node st).cycles,
        c ∈ st.cycles ∨ ∀ x ∈ c, neighborsOf g x ≠ [] := by
  intro fuel
  induction fuel with
  | zero => intro node st _ c hc; exact Or.inl hc
  | succ fuel ih =>
    intro node st hstack
    have hfold : ∀ (l : List String) (s : DfsState),
        (∀ x ∈ s.stackPath, neighborsOf g x ≠ []) →
        ∀ c ∈ (l.foldl (fun s nb => dfs g fuel nb s) s).cycles,
          c ∈ s.cycles ∨ ∀ x ∈ c, neighborsOf g x ≠ [] := by
      intro l
      induction l with
      | nil => intro s _ c hc; exact Or.inl hc
      | cons b bs ihl =>
        intro s hs c hc
        simp only [List.foldl_cons] at hc
        have hs2 : ∀ x ∈ (dfs g fuel b s).stackPath, neighborsOf g x ≠ [] := by
          rw [dfs_stackPath_eq g fuel b s]
          exact hs
        rcases ihl (dfs g fuel b s) hs2 c hc with hin | hprop
        · exact ih b s hs c hin
        · exact Or.inr hprop
    intro c hc
    simp only [dfs] at hc
    split_ifs at hc with h1 h2 h3
    · rcases List.mem_append.mp hc with hin | hnew
      · exact Or.inl hin
      · right
        rw [List.mem_singleton.mp hnew]
        intro x hx
        rcases List.mem_append.mp hx with hxs | hxn
        · exact hstack x (List.drop_subset _ _ hxs)
        · rw [List.mem_singleton.mp hxn]
          exact hstack node h2
    · exact Or.inl hc
    · exact Or.inl hc
    · dsimp only at hc
      by_cases hnb : neighborsOf g node = []
      · rw [hnb] at hc
        exact Or.inl hc
      · have hstack2 : ∀ x ∈ st.stackPath ++ [node], neighborsOf g x ≠ [] := by
          intro x hx
          rcases List.mem_append.mp hx with hxs | hxn
          · exact hstack x hxs
          · rw [List.mem_singleton.mp hxn]
            exact hnb
        exact hfold (neighborsOf g node)
          ⟨addSet st.visited node, addSet st.inStack node, st.stackPath ++ [node], st.cycles⟩
          hstack2 c hc

theorem detectCycles_nodes_edges : ∀ (g : List (String × List String)) (c : List String),
    c ∈ detectCycles g → ∀ x ∈ c, neighborsOf g x ≠ [] := by
  intro g c hc
  unfold detectCycles at hc
  have key : ∀ (ps : List (String × List String)) (st : DfsState),
      st.stackPath = [] →
      (∀ d ∈ st.cycles, ∀ x ∈ d, neighborsOf g x ≠ []) →
      ((ps.foldl (fun s p => if p.1 ∈ s.visited then s
          else dfs g (graphFuel g) p.1 s) st).stackPath = [] ∧
        ∀ d ∈ (ps.foldl (fun s p => if p.1 ∈ s.visited then s
          else dfs g (graphFuel g) p.1 s) st).cycles,
          ∀ x ∈ d, neighborsOf g x ≠ []) := by
    intro ps
    induction ps with
    | nil => intro st h1 h2; exact ⟨h1, h2⟩
    | cons p rest ihp =>
      intro st h1 h2
      simp only [List.foldl_cons]
      by_cases hv : p.1 ∈ st.visited
      · rw [if_pos hv]
        exact ihp st h1 h2
      · rw [if_neg hv]
        apply ihp
        · rw [dfs_stackPath_eq, h1]
        · intro d hd x hx
          rcases dfs_cycles_edges g (graphFuel g) p.1 st
              (by rw [h1]; intro y hy; exact absurd hy (List.not_mem_nil y)) d hd with
            hin | hprop
          · exact h2 d hin x hx
          · exact hprop x hx
  have hcycles := (key g ⟨[], [], [], []⟩ rfl (by intro d hd; simp at hd)).2
  exact hcycles c (dedupCycles_subset _ [] c hc)

theorem buildGraph_unread_no_key : ∀ (rootDir : String) (codeFiles : List FileRec)
    (readFn : String → Option (List String)) (p : String),
    (∀ f ∈ codeFiles, (readFn f.absolutePath).isSome → f.relativePath ≠ p) →
    alookup (buildGraph rootDir codeFiles readFn).graph p = none ∧
    alookup (buildGraph rootDir codeFiles readFn).outDegree p = none := by
  intro rootDir codeFiles readFn p hp
  unfold buildGraph
  have key : ∀ (files : List FileRec) (gd : GraphData),
      (∀ f ∈ files, (readFn f.absolutePath).isSome → f.relativePath ≠ p) →
      alookup gd.graph p = none → alookup gd.outDegree p = none →
      alookup ((files.foldl (fun gd file =>
        match readFn file.absolutePath with
        | none => gd
        | some lines => processFile rootDir codeFiles gd file lines) gd)).graph p = none ∧
      alookup ((files.foldl (fun gd file =>
        match readFn file.absolutePath with
        | none => gd
        | some lines => processFile rootDir codeFiles gd file lines) gd)).outDegree p = none := by
    intro files
    induction files with
    | nil => intro gd _ hg ho; exact ⟨hg, ho⟩
    | cons f rest ihf =>
      intro gd hf hg ho
      simp only [List.foldl_cons]
      cases hr : readFn f.absolutePath with
      | none =>
        exact ihf gd (fun u hu => hf u (List.mem_cons_of_mem _ hu)) hg ho
      | some lines =>
        have hne : f.relativePath ≠ p :=
          hf f (List.mem_cons_self _ _) (by rw [hr]; rfl)
        apply ihf
        · exact fun u hu => hf u (List.mem_cons_of_mem _ hu)
        · simp only [processFile]
          rw [alookup_mapSet_ne _ _ _ _ (fun hh => hne hh.symm)]
          exact hg
        · simp only [processFile]
          rw [alookup_mapSet_ne _ _ _ _ (fun hh => hne hh.symm)]
          exact ho
  exact key codeFiles ⟨[], [], []⟩ hp rfl rfl

/-- Counterexample to C6 as stated: in a corpus where `a.js` imports `./b`
and `b.js` fails to read, the unread file `b.js` still accrues in-degree 1
and appears in the adjacency set of `a.js` (because `resolveImport` matches
specifiers against the whole corpus of code files, read or not). -/
theorem claim6_counterexample :
    readUnread "/b.js" = none ∧
    alookup (buildGraph "." corpusUnread readUnread).inDegree "b.js" = some 1 ∧
    "b.js" ∈ neighborsOf (buildGraph "." corpusUnread readUnread).graph "a.js" := by
  refine ⟨rfl, by decide, by decide⟩

/-- C6 amended: a code file that fails to read contributes no node: it is
not a key of the adjacency map, has no out-degree entry, and appears in no
reported cycle.  It can, however, still be the target of edges — it may
appear inside other files' adjacency sets, accrue in-degree, and hence
appear in hub findings — because import resolution matches against the
whole corpus (see the counterexample). -/
theorem claim6_amended : ∀ (rootDir : String) (codeFiles : List FileRec)
    (readFn : String → Option (List String)) (p : String),
    (∀ f ∈ codeFiles, (readFn f.absolutePath).isSome → f.relativePath ≠ p) →
    alookup (buildGraph rootDir codeFiles readFn).graph p = none ∧
    alookup (buildGraph rootDir codeFiles readFn).outDegree p = none ∧
    ∀ c ∈ detectCycles (buildGraph rootDir codeFiles readFn).graph, p ∉ c := by
  intro rootDir codeFiles readFn p hp
  obtain ⟨hg, ho⟩ := buildGraph_unread_no_key rootDir codeFiles readFn p hp
  refine ⟨hg, ho, ?_⟩
  intro c hc hpc
  have hedge := detectCycles_nodes_edges _ c hc p hpc
  apply hedge
  unfold neighborsOf
  rw [hg]
  rfl

/-- Witness for the amended C6 on the concrete two-file corpus with the
unread `b.js`. -/
theorem claim6_amended_witness :
    alookup (buildGraph "." corpusUnread readUnread).graph "b.js" = none ∧
    alookup (buildGraph "." corpusUnread readUnread).outDegree "b.js" = none ∧
    ∀ c ∈ detectCycles (buildGraph "." corpusUnread readUnread).graph, "b.js" ∉ c :=
  claim6_amended "." corpusUnread readUnread "b.js" (by decide)
